import Mathlib

/-!
Verification of the binned-statistics engine of c3sdr_plotting_tool.py:
a shallow embedding of the mean / mean_and_uncert branch of
Plotter._add_trace and of Plotter.calculate_robust_statistics, over exact
rational arithmetic.  Uncertainty values, which the source forms as
s / sqrt(n) with s nonnegative, are represented throughout by their squares
(s^2 / n), which are rational; a nonnegative real number is determined by
its square.  NaN results (numpy mean or std of an empty slice) are
represented by Option.none, and aborting errors (assertion failures, the
ValueError raised by np.histogram for zero bins or an inverted range, and
the IndexError raised by np.percentile on an empty bin) by Except.error.
-/

namespace C3SDR

/-- Abnormal terminations of the mean / mean_and_uncert computation. -/
inductive Err where
  | maskMismatch
  | histError
  | insufficientData
  | insufficientAfter
  | percentileError
  deriving DecidableEq

/-- Result handed to create_scatter_plot: bin centres, central values and
(when the plot type requests it) squared uncertainties.  Entries that numpy
would produce as NaN are Option.none. -/
structure MeanResult where
  centres : List ℚ
  means : List (Option ℚ)
  uncertSq : Option (List (Option ℚ))
  deriving DecidableEq

/-- Configuration of one mean / mean_and_uncert trace: uncertMode is true
for plot_type mean_and_uncert and false for plot_type mean; robust is
robust_stats; minN is min_n; outliers, nbins and xrange are the keyword
arguments of the same names. -/
structure Cfg where
  uncertMode : Bool
  robust : Bool
  minN : ℕ
  outliers : Option ℚ
  nbins : Option ℤ
  xrange : Option (ℚ × ℚ)

/-- Minimum of a list, numpy style (meaningful on nonempty lists). -/
def listMin : List ℚ → ℚ
  | [] => 0
  | a :: rest => rest.foldr min a

/-- Maximum of a list, numpy style (meaningful on nonempty lists). -/
def listMax : List ℚ → ℚ
  | [] => 0
  | a :: rest => rest.foldr max a

/-- Maximum of a list of counts with default 0, as hist.max(). -/
def maxNat (l : List ℕ) : ℕ := l.foldr max 0

/-- Detects the inverted explicit range rejected by np.histogram. -/
def badRange : Option (ℚ × ℚ) → Bool
  | some (a, b) => decide (b < a)
  | none => false

/-- Widening of a degenerate histogram range by one half on each side,
as numpy applies when the two edges coincide. -/
def expandRange (p : ℚ × ℚ) : ℚ × ℚ :=
  if p.1 = p.2 then (p.1 - 1/2, p.1 + 1/2) else p

/-- Resolution of the histogram range as in numpy: an explicit range is
used as given, otherwise the data extrema (with numpy defaults (0, 1) for
empty data), and a degenerate range is widened by one half on each side. -/
def histRange (xs : List ℚ) (xr : Option (ℚ × ℚ)) : ℚ × ℚ :=
  expandRange
    (match xr with
     | some ab => ab
     | none => if xs = [] then (0, 1) else (listMin xs, listMax xs))

/-- Equal-width bin edges, as np.linspace(lo, hi, n + 1). -/
def linEdges (lo hi : ℚ) (n : ℕ) : List ℚ :=
  (List.range (n + 1)).map (fun (i : ℕ) => lo + (i : ℚ) * (hi - lo) / (n : ℚ))

/-- Membership of value v in histogram bin i: every bin is half open
except the final one, which is closed on both ends (numpy histogram
semantics). -/
def inBin (edges : List ℚ) (i : ℕ) (v : ℚ) : Bool :=
  if i + 2 < edges.length then
    decide (edges.getD i 0 ≤ v ∧ v < edges.getD (i + 1) 0)
  else
    decide (edges.getD i 0 ≤ v ∧ v ≤ edges.getD (i + 1) 0)

/-- Bin populations of np.histogram: one count per bin. -/
def histCounts (edges : List ℚ) (xs : List ℚ) : List ℕ :=
  (List.range (edges.length - 1)).map (fun i => (xs.filter (inBin edges i)).length)

/-- The bin count np.histogram resolves: with bins absent the count is
delegated to the numeric backend, abstracted here as the autoRule
parameter. -/
def binCount (autoRule : List ℚ → ℚ × ℚ → ℕ) (xs : List ℚ)
    (bins : Option ℤ) (xr : Option (ℚ × ℚ)) : ℕ :=
  match bins with
  | none => autoRule xs (histRange xs xr)
  | some k => k.toNat

/-- The bin edges np.histogram resolves. -/
def histEdges (autoRule : List ℚ → ℚ × ℚ → ℕ) (xs : List ℚ)
    (bins : Option ℤ) (xr : Option (ℚ × ℚ)) : List ℚ :=
  linEdges (histRange xs xr).1 (histRange xs xr).2 (binCount autoRule xs bins xr)

/-- The np.histogram call: fails (ValueError) on an inverted explicit
range or a zero bin count, and otherwise returns the per-bin counts and
the bin edges. -/
def histogram (autoRule : List ℚ → ℚ × ℚ → ℕ) (xs : List ℚ)
    (bins : Option ℤ) (xr : Option (ℚ × ℚ)) : Option (List ℕ × List ℚ) :=
  if badRange xr then none
  else if binCount autoRule xs bins xr = 0 then none
  else some (histCounts (histEdges autoRule xs bins xr) xs,
             histEdges autoRule xs bins xr)

/-- The np.digitize index of v against increasing edges: the number of
edges that are at most v, so that edges(i-1) <= v < edges(i) yields i,
values below all edges yield 0 and values at or above the last edge yield
the number of edges. -/
def digitize (edges : List ℚ) (v : ℚ) : ℕ :=
  (edges.filter (fun e => decide (e ≤ v))).length

/-- The y values whose paired x value digitizes to index i, as the source
expression y[digitized == i]. -/
def binMembers (edges : List ℚ) (x y : List ℚ) (i : ℕ) : List ℚ :=
  ((x.zip y).filter (fun p => decide (digitize edges p.1 = i))).map (fun p => p.2)

/-- The source list binned_data: the digitize members of bins 1 to
n_bin_edges - 1. -/
def binnedOf (edges : List ℚ) (x y : List ℚ) : List (List ℚ) :=
  (List.range (edges.length - 1)).map (fun j => binMembers edges x y (j + 1))

/-- Bin centres as the midpoint of consecutive edges. -/
def midpoints (edges : List ℚ) : List ℚ :=
  (List.range (edges.length - 1)).map (fun i => (edges.getD i 0 + edges.getD (i + 1) 0) / 2)

/-- The numpy mean of a list: NaN (none) when the list is empty. -/
def npMean (l : List ℚ) : Option ℚ :=
  if l = [] then none else some (l.sum / (l.length : ℚ))

/-- The numpy population variance (default ddof 0), the square of
np.std: NaN (none) when the list is empty. -/
def npVar (l : List ℚ) : Option ℚ :=
  if l = [] then none
  else
    let m := l.sum / (l.length : ℚ)
    some ((l.map (fun v => (v - m) ^ 2)).sum / (l.length : ℚ))

/-- The numpy percentile with linear interpolation on the sorted values;
none models the IndexError numpy raises on an empty array. -/
def npPercentile (l : List ℚ) (p : ℚ) : Option ℚ :=
  if l = [] then none
  else
    let s := l.insertionSort (· ≤ ·)
    let rank : ℚ := p / 100 * ((s.length : ℚ) - 1)
    let i : ℕ := (Int.floor rank).toNat
    let a := s.getD i 0
    let b := s.getD (i + 1) a
    some (a + (rank - (i : ℚ)) * (b - a))

/-- The numpy median, which agrees with the 50th percentile. -/
def npMedian (l : List ℚ) : Option ℚ := npPercentile l 50

/-- Per-bin medians of calculate_robust_statistics. -/
def mediansOf (binned : List (List ℚ)) : List ℚ :=
  binned.map (fun b => (npMedian b).getD 0)

/-- Squared robust uncertainties of calculate_robust_statistics:
the square of (interquartile range / 1.349) / sqrt(hist). -/
def uncSqOf (hist : List ℕ) (binned : List (List ℚ)) : List ℚ :=
  (List.range binned.length).map (fun i =>
    let b := binned.getD i []
    let iqr := (npPercentile b 75).getD 0 - (npPercentile b 25).getD 0
    (iqr * 1000 / 1349) ^ 2 / ((hist.getD i 0 : ℚ)))

/-- The classmethod calculate_robust_statistics: medians and squared
robust uncertainties, failing (IndexError from np.percentile) when any bin
is empty. -/
def robustStats (hist : List ℕ) (binned : List (List ℚ)) :
    Option (List ℚ × List ℚ) :=
  if binned.any (fun b => decide (b = [])) then none
  else some (mediansOf binned, uncSqOf hist binned)

/-- Decides a < t * sqrt q for rational a, t and nonnegative rational q,
by comparison of squares. -/
def ltMulSqrt (a t q : ℚ) : Bool :=
  if 0 ≤ t then decide (a < 0) || (decide (0 ≤ a) && decide (a ^ 2 < t ^ 2 * q))
  else decide (a < 0) && decide (t ^ 2 * q < a ^ 2)

/-- The retention test of the outlier-rejection comprehension
(binned_data - means) / uncert < outliers, in exact arithmetic on the
squared uncertainty: with zero uncertainty the float quotient is -inf, NaN
or +inf, of which only -inf compares below the threshold. -/
def keepSample (yv m t uSq : ℚ) : Bool :=
  if uSq = 0 then decide (yv < m) else ltMulSqrt (yv - m) t uSq

/-- The outlier-rejection comprehension of the source: each bin filtered
by the signed normalized-residual test against its own median and
uncertainty. -/
def rejectBins (binned : List (List ℚ)) (means uncSq : List ℚ) (t : ℚ) :
    List (List ℚ) :=
  (List.range binned.length).map (fun i =>
    (binned.getD i []).filter (fun yv =>
      keepSample yv (means.getD i 0) t (uncSq.getD i 0)))

/-- The bins retained by the outlier-rejection pass, expressed directly
from the histogram data: each digitize bin filtered against the medians
and squared uncertainties of the first robust-statistics pass. -/
def rejectedOf (hist : List ℕ) (edges x y : List ℚ) (t : ℚ) : List (List ℚ) :=
  rejectBins (binnedOf edges x y) (mediansOf (binnedOf edges x y))
    (uncSqOf hist (binnedOf edges x y)) t

/-- Squared non-robust uncertainties: the square of
np.std(members) / np.sqrt(hist), NaN (none) on empty bins. -/
def nonRobustUncSq (hist : List ℕ) (edges : List ℚ) (x y : List ℚ) :
    List (Option ℚ) :=
  (List.range (edges.length - 1)).map (fun i =>
    (npVar (binMembers edges x y (i + 1))).map (fun v => v / ((hist.getD i 0 : ℚ))))

/-- Normalization of the nbins argument: a negative integer is equivalent
to None (source lines 428 to 430). -/
def normBins : Option ℤ → Option ℤ
  | some k => if k < 0 then none else some k
  | none => none

/-- Drops the entries of l at the positions the mask marks true. -/
def filterMask (l : List ℚ) (m : List Bool) : List ℚ :=
  ((l.zip m).filter (fun p => !p.2)).map (fun p => p.1)

/-- The masked-array handling of the source: when any position is masked
the two masks must agree (else AssertionError) and the masked positions
are dropped from both arrays. -/
def maskStep (x y : List ℚ) (xm ym : Option (List Bool)) :
    Except Err (List ℚ × List ℚ) :=
  let xmask := xm.getD (List.replicate x.length false)
  let ymask := ym.getD (List.replicate y.length false)
  if xmask.any id || ymask.any id then
    if xmask = ymask then .ok (filterMask x ymask, filterMask y ymask)
    else .error .maskMismatch
  else .ok (x, y)

/-- The statistics computation after binning (source lines 450 to 471):
the global min_n sanity check, then either the robust path with optional
outlier rejection or the plain mean path, then assembly of centres, central
values and (for mean_and_uncert) uncertainties. -/
def afterHist (cfg : Cfg) (x y : List ℚ) (hist : List ℕ) (edges : List ℚ) :
    Except Err MeanResult :=
  if maxNat hist < cfg.minN then .error .insufficientData
  else if cfg.robust = true then
    match robustStats hist (binnedOf edges x y) with
    | none => .error .percentileError
    | some mu =>
      match cfg.outliers with
      | none =>
          .ok ⟨midpoints edges, mu.1.map some,
               if cfg.uncertMode = true then some (mu.2.map some) else none⟩
      | some t =>
          if maxNat ((rejectBins (binnedOf edges x y) mu.1 mu.2 t).map List.length)
              < cfg.minN then .error .insufficientAfter
          else
            match robustStats
                ((rejectBins (binnedOf edges x y) mu.1 mu.2 t).map List.length)
                (rejectBins (binnedOf edges x y) mu.1 mu.2 t) with
            | none => .error .percentileError
            | some mu2 =>
                .ok ⟨midpoints edges, mu2.1.map some,
                     if cfg.uncertMode = true then some (mu2.2.map some) else none⟩
  else
    .ok ⟨midpoints edges, (binnedOf edges x y).map npMean,
         if cfg.uncertMode = true then some (nonRobustUncSq hist edges x y) else none⟩

/-- The histogram call and everything after it. -/
def afterMask (autoRule : List ℚ → ℚ × ℚ → ℕ) (cfg : Cfg) (x y : List ℚ) :
    Except Err MeanResult :=
  match histogram autoRule x (normBins cfg.nbins) cfg.xrange with
  | none => .error .histError
  | some pr => afterHist cfg x y pr.1 pr.2

/-- The full mean / mean_and_uncert branch of _add_trace: mask handling,
nbins normalization, histogram, sanity checks and statistics. -/
def addTraceMean (autoRule : List ℚ → ℚ × ℚ → ℕ) (x y : List ℚ)
    (xm ym : Option (List Bool)) (cfg : Cfg) : Except Err MeanResult :=
  match maskStep x y xm ym with
  | .error e => .error e
  | .ok p => afterMask autoRule cfg p.1 p.2

/-- Projection of a result to its centres and central values, used to
compare the two plot modes. -/
def stripU (r : MeanResult) : List ℚ × List (Option ℚ) := (r.centres, r.means)

/-- Arithmetic mean, as the claims state it. -/
def specMean (l : List ℚ) : ℚ := l.sum / (l.length : ℚ)

/-- Population variance (squared standard deviation of the sample, the
divisor being the sample size), as the claims and the design notes of the
specification use it. -/
def specVarPop (l : List ℚ) : ℚ :=
  (l.map (fun v => (v - specMean l) ^ 2)).sum / (l.length : ℚ)

/-- The y values whose paired x value lies in histogram bin i of the
edges, with the final bin closed on both ends: the bin membership the
specification describes. -/
def intervalMembers (edges : List ℚ) (x y : List ℚ) (i : ℕ) : List ℚ :=
  ((x.zip y).filter (fun p => inBin edges i p.1)).map (fun p => p.2)

/-- The magnitude-based rejection rule claim C2 states: keep exactly the
samples whose normalized residual is strictly below the threshold in
absolute value, expressed on the squared uncertainty. -/
def specOutlierFilterAbs (b : List ℚ) (m t uSq : ℚ) : List ℚ :=
  b.filter (fun yv => decide ((yv - m) ^ 2 < t ^ 2 * uSq))

/-- The retention condition of the amended claim C2 in real-number terms:
with nonzero uncertainty u = sqrt uSq the signed normalized residual
(yv - m) / u lies strictly below t, and with zero uncertainty the sample
is kept exactly when its value lies strictly below the central value. -/
def realKeep (yv m t uSq : ℚ) : Prop :=
  if uSq = 0 then yv < m
  else ((yv : ℝ) - (m : ℝ)) < (t : ℝ) * Real.sqrt (uSq : ℝ)

/-- Helper lemmas about the embedding. -/
theorem replicate_any_false (n : ℕ) : (List.replicate n false).any id = false := by
  induction n with
  | zero => rfl
  | succ k ih => simpa [List.replicate_succ] using ih

theorem maskStep_none (x y : List ℚ) : maskStep x y none none = .ok (x, y) := by
  simp [maskStep, replicate_any_false]

theorem filterMask_cons (a : ℚ) (t : List ℚ) (b : Bool) (bm : List Bool) :
    filterMask (a :: t) (b :: bm)
      = if b then filterMask t bm else a :: filterMask t bm := by
  cases b <;> simp [filterMask, List.filter_cons]

theorem filterMask_no_true : ∀ (l : List ℚ) (m : List Bool),
    m.length = l.length → m.any id = false → filterMask l m = l
  | [], [], _, _ => rfl
  | [], _ :: _, hlen, _ => by simp at hlen
  | _ :: _, [], hlen, _ => by simp at hlen
  | a :: t, b :: bm, hlen, hany => by
    rcases (by simpa using hany : b = false ∧ bm.any id = false) with ⟨rfl, h2⟩
    rw [filterMask_cons, if_neg (by simp),
        filterMask_no_true t bm (by simpa using hlen) h2]

theorem maskStep_some (x y : List ℚ) (m : List Bool) (hx : m.length = x.length)
    (hy : m.length = y.length) :
    maskStep x y (some m) (some m) = .ok (filterMask x m, filterMask y m) := by
  by_cases h : m.any id = true
  · simp [maskStep, h]
  · have h2 : m.any id = false := by simpa using h
    simp [maskStep, h2, filterMask_no_true x m hx h2, filterMask_no_true y m hy h2]

theorem getD_map_range {α : Type} (f : ℕ → α) (d : α) {n i : ℕ} (h : i < n) :
    ((List.range n).map f).getD i d = f i := by
  rw [List.getD_eq_get?, List.get?_map, List.get?_range h]
  rfl

theorem getD_mem {α : Type} (l : List α) (d : α) {i : ℕ} (h : i < l.length) :
    l.getD i d ∈ l := by
  rw [List.getD_eq_get?, List.get?_eq_get h]
  exact List.get_mem l i h

theorem digitize_cons (e : ℚ) (rest : List ℚ) (v : ℚ) :
    digitize (e :: rest) v
      = if e ≤ v then digitize rest v + 1 else digitize rest v := by
  by_cases h : e ≤ v <;> simp [digitize, List.filter_cons, h]

theorem digitize_eq_zero (edges : List ℚ) (v : ℚ) (h : ∀ e ∈ edges, v < e) :
    digitize edges v = 0 := by
  unfold digitize
  rw [List.length_eq_zero]
  exact List.filter_eq_nil_iff.mpr (fun a ha => by simp [not_le.mpr (h a ha)])

theorem digitize_eq_succ_iff (edges : List ℚ) (hp : edges.Pairwise (· < ·)) (v : ℚ) :
    ∀ i, i + 1 < edges.length →
      (digitize edges v = i + 1 ↔ edges.getD i 0 ≤ v ∧ v < edges.getD (i + 1) 0) := by
  clear * - hp
  revert hp
  induction edges with
  | nil => intro hp i h; simp at h
  | cons e rest ih =>
    intro hp i hlen
    rcases List.pairwise_cons.mp hp with ⟨he, hrest⟩
    rw [digitize_cons]
    cases i with
    | zero =>
      obtain ⟨r0, rest2, rfl⟩ : ∃ r0 rest2, rest = r0 :: rest2 := by
        cases rest with
        | nil => simp at hlen
        | cons r0 rest2 => exact ⟨r0, rest2, rfl⟩
      simp only [List.getD_cons_zero, List.getD_cons_succ]
      by_cases h : e ≤ v
      · rw [if_pos h]
        constructor
        · intro h1
          have h0 : digitize (r0 :: rest2) v = 0 := by omega
          rw [digitize_cons] at h0
          by_cases h2 : r0 ≤ v
          · rw [if_pos h2] at h0; omega
          · exact ⟨h, by simpa using not_le.mp h2⟩
        · rintro ⟨-, hv⟩
          have h0 : digitize (r0 :: rest2) v = 0 := by
            apply digitize_eq_zero
            intro a ha
            rcases List.mem_cons.mp ha with rfl | ha2
            · simpa using hv
            · exact lt_trans (by simpa using hv)
                ((List.pairwise_cons.mp hrest).1 a ha2)
          omega
      · rw [if_neg h]
        have h0 : digitize (r0 :: rest2) v = 0 :=
          digitize_eq_zero _ _ (fun a ha => lt_trans (not_le.mp h) (he a ha))
        constructor
        · intro h1; omega
        · rintro ⟨ha, -⟩; exact absurd ha h
    | succ j =>
      have hlen2 : j + 1 < rest.length := by
        simpa using Nat.lt_of_succ_lt_succ hlen
      simp only [List.getD_cons_succ]
      by_cases h : e ≤ v
      · rw [if_pos h]
        rw [show digitize rest v + 1 = j + 1 + 1 ↔ digitize rest v = j + 1 by omega]
        exact ih hrest j hlen2
      · rw [if_neg h]
        have h0 : digitize rest v = 0 :=
          digitize_eq_zero _ _ (fun a ha => lt_trans (not_le.mp h) (he a ha))
        constructor
        · intro h1; omega
        · rintro ⟨ha, -⟩
          have hmem : rest.getD j 0 ∈ rest := getD_mem rest 0 (by omega)
          exact absurd ha (not_le.mpr (lt_trans (not_le.mp h) (he _ hmem)))

theorem digitize_eq_inBin (edges : List ℚ) (hp : edges.Pairwise (· < ·)) (v : ℚ)
    (i : ℕ) (hi : i + 1 < edges.length)
    (hv : i + 2 = edges.length → v ≠ edges.getD (i + 1) 0) :
    decide (digitize edges v = i + 1) = inBin edges i v := by
  unfold inBin
  by_cases hc : i + 2 < edges.length
  · rw [if_pos hc, decide_eq_decide]
    exact digitize_eq_succ_iff edges hp v i hi
  · rw [if_neg hc, decide_eq_decide, digitize_eq_succ_iff edges hp v i hi]
    have hlast : i + 2 = edges.length := by omega
    constructor
    · rintro ⟨h1, h2⟩; exact ⟨h1, le_of_lt h2⟩
    · rintro ⟨h1, h2⟩; exact ⟨h1, lt_of_le_of_ne h2 (hv hlast)⟩

theorem binMembers_eq_intervalMembers (edges x y : List ℚ)
    (hp : edges.Pairwise (· < ·)) (i : ℕ) (hi : i + 1 < edges.length)
    (hlast : i + 2 = edges.length → ∀ v ∈ x, v ≠ edges.getD (i + 1) 0) :
    binMembers edges x y (i + 1) = intervalMembers edges x y i := by
  unfold binMembers intervalMembers
  congr 1
  apply List.filter_congr
  intro p hpmem
  exact digitize_eq_inBin edges hp p.1 i hi
    (fun h => hlast h p.1 (List.of_mem_zip hpmem).1)

theorem length_filter_zip_fst {β : Type} (p : ℚ → Bool) :
    ∀ (x : List ℚ) (y : List β), x.length = y.length →
      (((x.zip y).filter (fun q => p q.1)).map (fun q => q.2)).length
        = (x.filter p).length
  | [], _, _ => by simp
  | _ :: _, [], h => by simp at h
  | a :: xs, b :: ys, h => by
    simp only [List.zip_cons_cons, List.filter_cons]
    by_cases hp : p a <;>
      simp [hp, length_filter_zip_fst p xs ys (by simpa using h)]

theorem intervalMembers_length (edges x y : List ℚ) (i : ℕ)
    (h : x.length = y.length) :
    (intervalMembers edges x y i).length = (x.filter (inBin edges i)).length :=
  length_filter_zip_fst _ x y h

theorem histCounts_getD (edges xs : List ℚ) (i : ℕ) (hi : i < edges.length - 1) :
    (histCounts edges xs).getD i 0 = (xs.filter (inBin edges i)).length := by
  unfold histCounts
  exact getD_map_range _ _ hi

theorem foldr_min_le (a : ℚ) : ∀ (l : List ℚ), l.foldr min a ≤ a
  | [] => le_refl a
  | b :: t => le_trans (min_le_right b _) (foldr_min_le a t)

theorem le_foldr_max (a : ℚ) : ∀ (l : List ℚ), a ≤ l.foldr max a
  | [] => le_refl a
  | b :: t => le_trans (le_foldr_max a t) (le_max_right b _)

theorem listMin_le_listMax (l : List ℚ) (h : l ≠ []) : listMin l ≤ listMax l := by
  cases l with
  | nil => exact absurd rfl h
  | cons a t => exact le_trans (foldr_min_le a t) (le_foldr_max a t)

theorem expandRange_lt (p : ℚ × ℚ) (h : p.1 ≤ p.2) :
    (expandRange p).1 < (expandRange p).2 := by
  unfold expandRange
  by_cases he : p.1 = p.2
  · rw [if_pos he]
    dsimp only
    linarith
  · rw [if_neg he]
    exact lt_of_le_of_ne h he

theorem histRange_lt (xs : List ℚ) (xr : Option (ℚ × ℚ))
    (hb : badRange xr = false) :
    (histRange xs xr).1 < (histRange xs xr).2 := by
  unfold histRange
  apply expandRange_lt
  cases xr with
  | some ab =>
    obtain ⟨a, b⟩ := ab
    exact not_lt.mp (by simpa [badRange] using hb)
  | none =>
    by_cases hxs : xs = []
    · simp [hxs]
    · simp only [if_neg hxs]
      exact listMin_le_listMax xs hxs

theorem linEdges_length (lo hi : ℚ) (n : ℕ) : (linEdges lo hi n).length = n + 1 := by
  rw [linEdges, List.length_map, List.length_range]

theorem linEdges_pairwise (lo hi : ℚ) (n : ℕ) (h : lo < hi) (hn : n ≠ 0) :
    (linEdges lo hi n).Pairwise (· < ·) := by
  unfold linEdges
  refine List.Pairwise.map _ ?step (List.pairwise_lt_range (n + 1))
  intro a b hab
  have hd : 0 < (hi - lo) / (n : ℚ) := by
    apply div_pos (by linarith)
    exact_mod_cast Nat.pos_of_ne_zero hn
  have hc : (a : ℚ) < (b : ℚ) := by exact_mod_cast hab
  have := mul_lt_mul_of_pos_right hc hd
  rw [mul_div_assoc, mul_div_assoc]
  linarith

theorem histogram_eq (autoRule : List ℚ → ℚ × ℚ → ℕ) (xs : List ℚ)
    (bins : Option ℤ) (xr : Option (ℚ × ℚ)) (hist : List ℕ) (edges : List ℚ)
    (hh : histogram autoRule xs bins xr = some (hist, edges)) :
    binCount autoRule xs bins xr ≠ 0 ∧
      edges = histEdges autoRule xs bins xr ∧
      hist = histCounts edges xs ∧
      (histRange xs xr).1 < (histRange xs xr).2 := by
  unfold histogram at hh
  by_cases hb : badRange xr = true
  · rw [if_pos hb] at hh
    exact absurd hh (by simp)
  · rw [if_neg hb] at hh
    by_cases hn : binCount autoRule xs bins xr = 0
    · rw [if_pos hn] at hh
      exact absurd hh (by simp)
    · rw [if_neg hn] at hh
      obtain ⟨h3, h4⟩ := Prod.mk.injEq _ _ _ _ ▸ (Option.some.inj hh)
      exact ⟨hn, h4.symm, h4 ▸ h3.symm,
        histRange_lt xs xr (by simpa using hb)⟩

theorem edges_facts (autoRule : List ℚ → ℚ × ℚ → ℕ) (xs : List ℚ)
    (bins : Option ℤ) (xr : Option (ℚ × ℚ)) (hist : List ℕ) (edges : List ℚ)
    (hh : histogram autoRule xs bins xr = some (hist, edges)) :
    edges.Pairwise (· < ·) ∧ 2 ≤ edges.length ∧ hist = histCounts edges xs := by
  obtain ⟨hn, hedges, hhist, hlt⟩ := histogram_eq autoRule xs bins xr hist edges hh
  constructor
  · rw [hedges]
    exact linEdges_pairwise _ _ _ hlt hn
  constructor
  · rw [hedges]
    unfold histEdges
    rw [linEdges_length]
    omega
  · exact hhist

theorem robustStats_of_ne (hist : List ℕ) (binned : List (List ℚ))
    (h : ∀ l ∈ binned, l ≠ []) :
    robustStats hist binned = some (mediansOf binned, uncSqOf hist binned) := by
  unfold robustStats
  rw [if_neg]
  simp only [List.any_eq_true, decide_eq_true_eq, not_exists]
  intro l
  rw [not_and]
  exact fun hl => h l hl

theorem uncSqOf_length (hist : List ℕ) (binned : List (List ℚ)) :
    (uncSqOf hist binned).length = binned.length := by
  simp [uncSqOf]

theorem uncSqOf_nonneg (hist : List ℕ) (binned : List (List ℚ)) (i : ℕ) :
    0 ≤ (uncSqOf hist binned).getD i 0 := by
  by_cases h : i < binned.length
  · unfold uncSqOf
    rw [getD_map_range _ _ h]
    apply div_nonneg (sq_nonneg _)
    positivity
  · rw [List.getD_eq_default]
    rw [uncSqOf_length]
    omega

theorem ltMulSqrt_iff (a t q : ℚ) (hq : 0 < q) :
    ltMulSqrt a t q = true ↔ ((a : ℝ) < (t : ℝ) * Real.sqrt (q : ℝ)) := by
  have hqr : (0 : ℝ) < (q : ℝ) := by exact_mod_cast hq
  have hs : 0 < Real.sqrt (q : ℝ) := Real.sqrt_pos.mpr hqr
  have hsq : Real.sqrt (q : ℝ) ^ 2 = (q : ℝ) := Real.sq_sqrt (le_of_lt hqr)
  unfold ltMulSqrt
  by_cases ht : (0 : ℚ) ≤ t
  · have htr : (0 : ℝ) ≤ (t : ℝ) := by exact_mod_cast ht
    rw [if_pos ht]
    simp only [Bool.or_eq_true, Bool.and_eq_true, decide_eq_true_eq]
    constructor
    · rintro (ha | ⟨ha0, ha2⟩)
      · have : (a : ℝ) < 0 := by exact_mod_cast ha
        exact lt_of_lt_of_le this (mul_nonneg htr hs.le)
      · have h1 : (a : ℝ) ^ 2 < ((t : ℝ) * Real.sqrt (q : ℝ)) ^ 2 := by
          rw [mul_pow, hsq]
          exact_mod_cast ha2
        have ha0r : (0 : ℝ) ≤ (a : ℝ) := by exact_mod_cast ha0
        nlinarith [mul_nonneg htr hs.le]
    · intro h
      by_cases ha : a < 0
      · exact Or.inl ha
      · have ha0r : (0 : ℝ) ≤ (a : ℝ) := by exact_mod_cast not_lt.mp ha
        have h2 : (a : ℝ) ^ 2 < ((t : ℝ) * Real.sqrt (q : ℝ)) ^ 2 :=
          pow_lt_pow_left h ha0r (two_ne_zero)
        rw [mul_pow, hsq] at h2
        exact Or.inr ⟨not_lt.mp ha, by exact_mod_cast h2⟩
  · have htr : (t : ℝ) < 0 := by exact_mod_cast not_le.mp ht
    have hts : (t : ℝ) * Real.sqrt (q : ℝ) < 0 := mul_neg_of_neg_of_pos htr hs
    rw [if_neg ht]
    simp only [Bool.and_eq_true, decide_eq_true_eq]
    constructor
    · rintro ⟨ha, h2⟩
      have har : (a : ℝ) < 0 := by exact_mod_cast ha
      have h2r : ((t : ℝ) * Real.sqrt (q : ℝ)) ^ 2 < (a : ℝ) ^ 2 := by
        rw [mul_pow, hsq]
        exact_mod_cast h2
      nlinarith
    · intro h
      have har : (a : ℝ) < 0 := lt_trans h hts
      have ha : a < 0 := by exact_mod_cast har
      refine ⟨ha, ?sq⟩
      have h2 : ((t : ℝ) * Real.sqrt (q : ℝ)) ^ 2 < (a : ℝ) ^ 2 := by nlinarith
      rw [mul_pow, hsq] at h2
      exact_mod_cast h2

theorem keepSample_iff (yv m t uSq : ℚ) (hq : 0 ≤ uSq) :
    keepSample yv m t uSq = true ↔ realKeep yv m t uSq := by
  unfold keepSample realKeep
  by_cases h : uSq = 0
  · rw [if_pos h, if_pos h]
    simp
  · rw [if_neg h, if_neg h]
    have := ltMulSqrt_iff (yv - m) t uSq (lt_of_le_of_ne hq (Ne.symm h))
    rw [this]
    push_cast
    rfl

theorem binnedOf_length (edges x y : List ℚ) :
    (binnedOf edges x y).length = edges.length - 1 := by
  simp [binnedOf]

theorem rejectBins_length (b : List (List ℚ)) (m u : List ℚ) (t : ℚ) :
    (rejectBins b m u t).length = b.length := by
  simp [rejectBins]

theorem mediansOf_length (b : List (List ℚ)) : (mediansOf b).length = b.length := by
  simp [mediansOf]

theorem nonRobustUncSq_length (hist : List ℕ) (edges x y : List ℚ) :
    (nonRobustUncSq hist edges x y).length = edges.length - 1 := by
  simp [nonRobustUncSq]

theorem midpoints_length (edges : List ℚ) :
    (midpoints edges).length = edges.length - 1 := by
  simp [midpoints]

theorem addTraceMean_nomask (autoRule : List ℚ → ℚ × ℚ → ℕ) (cfg : Cfg)
    (x y : List ℚ) :
    addTraceMean autoRule x y none none cfg = afterMask autoRule cfg x y := by
  unfold addTraceMean
  rw [maskStep_none]

theorem afterMask_eq (autoRule : List ℚ → ℚ × ℚ → ℕ) (cfg : Cfg) (x y : List ℚ)
    (hist : List ℕ) (edges : List ℚ)
    (hh : histogram autoRule x (normBins cfg.nbins) cfg.xrange = some (hist, edges)) :
    afterMask autoRule cfg x y = afterHist cfg x y hist edges := by
  unfold afterMask
  rw [hh]

theorem afterHist_insufficient (cfg : Cfg) (x y : List ℚ) (hist : List ℕ)
    (edges : List ℚ) (hmin : maxNat hist < cfg.minN) :
    afterHist cfg x y hist edges = .error .insufficientData := by
  unfold afterHist
  rw [if_pos hmin]

theorem afterHist_nonrobust (cfg : Cfg) (x y : List ℚ) (hist : List ℕ)
    (edges : List ℚ) (hrob : cfg.robust = false)
    (hmin : cfg.minN ≤ maxNat hist) :
    afterHist cfg x y hist edges =
      .ok ⟨midpoints edges, (binnedOf edges x y).map npMean,
           if cfg.uncertMode = true then some (nonRobustUncSq hist edges x y)
           else none⟩ := by
  unfold afterHist
  rw [if_neg (not_lt.mpr hmin), hrob, if_neg (by simp)]

theorem afterHist_robust_noout (cfg : Cfg) (x y : List ℚ) (hist : List ℕ)
    (edges : List ℚ) (hrob : cfg.robust = true) (hout : cfg.outliers = none)
    (hmin : cfg.minN ≤ maxNat hist)
    (hne : ∀ l ∈ binnedOf edges x y, l ≠ []) :
    afterHist cfg x y hist edges =
      .ok ⟨midpoints edges, (mediansOf (binnedOf edges x y)).map some,
           if cfg.uncertMode = true then
             some ((uncSqOf hist (binnedOf edges x y)).map some)
           else none⟩ := by
  unfold afterHist
  rw [if_neg (not_lt.mpr hmin), hrob, if_pos rfl, robustStats_of_ne _ _ hne]
  dsimp only
  rw [hout]

theorem afterHist_robust_out (cfg : Cfg) (x y : List ℚ) (hist : List ℕ)
    (edges : List ℚ) (t : ℚ) (hrob : cfg.robust = true)
    (hout : cfg.outliers = some t) (hmin : cfg.minN ≤ maxNat hist)
    (hne : ∀ l ∈ binnedOf edges x y, l ≠ [])
    (hmin2 : cfg.minN ≤ maxNat ((rejectedOf hist edges x y t).map List.length))
    (hne2 : ∀ l ∈ rejectedOf hist edges x y t, l ≠ []) :
    afterHist cfg x y hist edges =
      .ok ⟨midpoints edges, (mediansOf (rejectedOf hist edges x y t)).map some,
           if cfg.uncertMode = true then
             some ((uncSqOf ((rejectedOf hist edges x y t).map List.length)
                     (rejectedOf hist edges x y t)).map some)
           else none⟩ := by
  unfold afterHist
  rw [if_neg (not_lt.mpr hmin), hrob, if_pos rfl, robustStats_of_ne _ _ hne]
  dsimp only
  rw [hout]
  dsimp only
  rw [show rejectBins (binnedOf edges x y) (mediansOf (binnedOf edges x y))
        (uncSqOf hist (binnedOf edges x y)) t = rejectedOf hist edges x y t from rfl,
      if_neg (not_lt.mpr hmin2), robustStats_of_ne _ _ hne2]

theorem histogram_zero (autoRule : List ℚ → ℚ × ℚ → ℕ) (xs : List ℚ)
    (xr : Option (ℚ × ℚ)) : histogram autoRule xs (some 0) xr = none := by
  unfold histogram
  by_cases hb : badRange xr = true
  · rw [if_pos hb]
  · rw [if_neg hb,
        if_pos (show binCount autoRule xs (some 0) xr = 0 from rfl)]

theorem afterHist_robust_out_insufficient (cfg : Cfg) (x y : List ℚ)
    (hist : List ℕ) (edges : List ℚ) (t : ℚ) (hrob : cfg.robust = true)
    (hout : cfg.outliers = some t) (hmin : cfg.minN ≤ maxNat hist)
    (hne : ∀ l ∈ binnedOf edges x y, l ≠ [])
    (hmin2 : maxNat ((rejectedOf hist edges x y t).map List.length) < cfg.minN) :
    afterHist cfg x y hist edges = .error .insufficientAfter := by
  unfold afterHist
  rw [if_neg (not_lt.mpr hmin), hrob, if_pos rfl, robustStats_of_ne _ _ hne]
  dsimp only
  rw [hout]
  dsimp only
  rw [show rejectBins (binnedOf edges x y) (mediansOf (binnedOf edges x y))
        (uncSqOf hist (binnedOf edges x y)) t = rejectedOf hist edges x y t from rfl,
      if_pos hmin2]

/-- C6: for identical masks on x and y, running the computation on the
masked inputs equals running it on the arrays obtained by first removing
the masked positions from both x and y (filter then bin equals bin with
mask). -/
theorem C6_mask_filter (autoRule : List ℚ → ℚ × ℚ → ℕ) (x y : List ℚ)
    (m : List Bool) (cfg : Cfg) (hx : m.length = x.length)
    (hy : m.length = y.length) :
    addTraceMean autoRule x y (some m) (some m) cfg
      = addTraceMean autoRule (filterMask x m) (filterMask y m) none none cfg := by
  unfold addTraceMean
  rw [maskStep_some x y m hx hy, maskStep_none]

/-- C6 witness: a concrete masked input with one masked position gives the
same result as binning the explicitly filtered arrays. -/
theorem C6_mask_filter_witness :
    addTraceMean (fun _ _ => 1) [0, 1] [1, 2] (some [false, true])
        (some [false, true]) ⟨true, false, 1, none, some 1, some (0, 1)⟩
      = addTraceMean (fun _ _ => 1) (filterMask [0, 1] [false, true])
          (filterMask [1, 2] [false, true]) none none
          ⟨true, false, 1, none, some 1, some (0, 1)⟩ :=
  C6_mask_filter (fun _ _ => 1) [0, 1] [1, 2] [false, true]
    ⟨true, false, 1, none, some 1, some (0, 1)⟩ rfl rfl

/-- C7: the mean mode and the mean_and_uncertainty mode agree on the bin
centres and on every central value for identical inputs; the two modes
differ only in whether the uncertainty sequence is populated.  They also
agree on success or failure. -/
theorem C7_modes_agree (autoRule : List ℚ → ℚ × ℚ → ℕ) (x y : List ℚ)
    (xm ym : Option (List Bool)) (robust : Bool) (minN : ℕ) (o : Option ℚ)
    (nb : Option ℤ) (xr : Option (ℚ × ℚ)) :
    Except.map stripU
        (addTraceMean autoRule x y xm ym ⟨true, robust, minN, o, nb, xr⟩)
      = Except.map stripU
          (addTraceMean autoRule x y xm ym ⟨false, robust, minN, o, nb, xr⟩) := by
  unfold addTraceMean
  cases hm : maskStep x y xm ym with
  | error e => rfl
  | ok p =>
    dsimp only
    unfold afterMask
    dsimp only
    cases hh : histogram autoRule p.1 (normBins nb) xr with
    | none => rfl
    | some pr =>
      dsimp only
      unfold afterHist
      dsimp only
      by_cases hmin : maxNat pr.1 < minN
      · rw [if_pos hmin, if_pos hmin]
      · rw [if_neg hmin, if_neg hmin]
        cases robust with
        | false =>
          rw [if_neg (show ¬(false = true) by simp),
              if_neg (show ¬(false = true) by simp)]
          rfl
        | true =>
          rw [if_pos rfl, if_pos rfl]
          cases hrs : robustStats pr.1 (binnedOf pr.2 p.1 p.2) with
          | none => rfl
          | some mu =>
            dsimp only
            cases o with
            | none => rfl
            | some t =>
              dsimp only
              by_cases hmin2 :
                  maxNat ((rejectBins (binnedOf pr.2 p.1 p.2) mu.1 mu.2 t).map
                    List.length) < minN
              · rw [if_pos hmin2, if_pos hmin2]
              · rw [if_neg hmin2, if_neg hmin2]
                cases hrs2 : robustStats
                    ((rejectBins (binnedOf pr.2 p.1 p.2) mu.1 mu.2 t).map
                      List.length)
                    (rejectBins (binnedOf pr.2 p.1 p.2) mu.1 mu.2 t) with
                | none => rfl
                | some mu2 => rfl

/-- C10: with robust_stats false the outliers parameter has no effect on
any output: two runs on identical inputs that differ only in the value of
outliers produce identical results, agreeing on centres, central values,
uncertainties and on success or failure. -/
theorem C10_outliers_no_effect (autoRule : List ℚ → ℚ × ℚ → ℕ) (x y : List ℚ)
    (xm ym : Option (List Bool)) (uMode : Bool) (minN : ℕ) (o1 o2 : Option ℚ)
    (nb : Option ℤ) (xr : Option (ℚ × ℚ)) :
    addTraceMean autoRule x y xm ym ⟨uMode, false, minN, o1, nb, xr⟩
      = addTraceMean autoRule x y xm ym ⟨uMode, false, minN, o2, nb, xr⟩ := by
  unfold addTraceMean
  cases hm : maskStep x y xm ym with
  | error e => rfl
  | ok p =>
    dsimp only
    unfold afterMask
    dsimp only
    cases hh : histogram autoRule p.1 (normBins nb) xr with
    | none => rfl
    | some pr =>
      dsimp only
      unfold afterHist
      dsimp only
      by_cases hmin : maxNat pr.1 < minN
      · rw [if_pos hmin, if_pos hmin]
      · rw [if_neg hmin, if_neg hmin, if_neg (show ¬(false = true) by simp),
            if_neg (show ¬(false = true) by simp)]

/-- C8 counterexample: nbins = 0 is not treated as automatic: the call
fails with the histogram backend error, while the same call with nbins
unset succeeds, so a computation can fail merely because nbins is zero. -/
theorem C8_counterexample :
    addTraceMean (fun _ _ => 1) [0, 1] [0, 1] none none
        ⟨false, false, 1, none, some 0, none⟩ = .error .histError ∧
      addTraceMean (fun _ _ => 1) [0, 1] [0, 1] none none
        ⟨false, false, 1, none, none, none⟩ = .ok ⟨[1/2], [some 0], none⟩ := by
  constructor <;> with_unfolding_all rfl

/-- C8 amended: a strictly negative or unset nbins is treated as
automatic, the call behaving identically to the unset case in which the
edge count is delegated to the backend rule; nbins = 0 is passed through
to the histogram call, which always fails with an error. -/
theorem C8_amended (autoRule : List ℚ → ℚ × ℚ → ℕ) (x y : List ℚ)
    (xm ym : Option (List Bool)) (uMode robust : Bool) (minN : ℕ)
    (o : Option ℚ) (xr : Option (ℚ × ℚ)) (k : ℤ) (hk : k < 0) :
    addTraceMean autoRule x y xm ym ⟨uMode, robust, minN, o, some k, xr⟩
        = addTraceMean autoRule x y xm ym ⟨uMode, robust, minN, o, none, xr⟩ ∧
      addTraceMean autoRule x y none none ⟨uMode, robust, minN, o, some 0, xr⟩
        = .error .histError := by
  constructor
  · unfold addTraceMean
    cases hm : maskStep x y xm ym with
    | error e => rfl
    | ok p =>
      dsimp only
      unfold afterMask
      dsimp only
      rw [show normBins (some k) = none by simp [normBins, hk]]
      rfl
  · rw [addTraceMean_nomask]
    unfold afterMask
    dsimp only
    rw [show normBins (some 0) = some 0 by simp [normBins]]
    rw [histogram_zero]

theorem npMean_eq_none (l : List ℚ) : npMean l = none ↔ l = [] := by
  by_cases h : l = [] <;> simp [npMean, h]

theorem npMean_of_ne (l : List ℚ) (h : l ≠ []) : npMean l = some (specMean l) := by
  simp [npMean, h, specMean]

theorem npVar_of_ne (l : List ℚ) (h : l ≠ []) : npVar l = some (specVarPop l) := by
  simp [npVar, h, specVarPop, specMean]

theorem npVar_singleton (v : ℚ) : npVar [v] = some 0 := by
  simp [npVar]

theorem map_npMean_binnedOf_getD (edges x y : List ℚ) (i : ℕ)
    (hi : i < edges.length - 1) :
    ((binnedOf edges x y).map npMean).getD i none
      = npMean (binMembers edges x y (i + 1)) := by
  unfold binnedOf
  rw [List.map_map]
  exact getD_map_range _ _ hi

theorem nonRobustUncSq_getD (hist : List ℕ) (edges x y : List ℚ) (i : ℕ)
    (hi : i < edges.length - 1) :
    (nonRobustUncSq hist edges x y).getD i none
      = (npVar (binMembers edges x y (i + 1))).map
          (fun v => v / (hist.getD i 0 : ℚ)) := by
  unfold nonRobustUncSq
  exact getD_map_range _ _ hi

theorem robustStats_some_lengths (hist : List ℕ) (b : List (List ℚ))
    (mu : List ℚ × List ℚ) (h : robustStats hist b = some mu) :
    mu.1.length = b.length ∧ mu.2.length = b.length := by
  unfold robustStats at h
  split at h
  · exact absurd h (by simp)
  · cases Option.some.inj h
    exact ⟨mediansOf_length b, uncSqOf_length hist b⟩

/-- C3: evaluation at the failing input.  The sample at x = 2, the final
edge, is counted by the histogram in the final bin (count 3) but excluded
by np.digitize from the final bin's statistic, so the code reports a mean
of 0 for that bin, while the closed final bin's members [0, 0, 10] have
mean 10/3 as the claim requires. -/
theorem C3_last_edge_eval :
    addTraceMean (fun _ _ => 1) [0, 1, 2, 2] [0, 0, 0, 10] none none
        ⟨false, false, 1, none, some 2, none⟩
      = .ok ⟨[1/2, 3/2], [some 0, some 0], none⟩ ∧
      intervalMembers [0, 1, 2] [0, 1, 2, 2] [0, 0, 0, 10] 1 = [0, 0, 10] ∧
      npMean [0, 0, 10] = some (10/3) ∧
      histCounts [0, 1, 2] [0, 1, 2, 2] = [1, 3] := by
  refine ⟨?a, ?b, ?c, ?d⟩ <;> with_unfolding_all rfl

/-- C9 counterexample: in mean_and_uncert mode with robust false, a bin of
population 1 yields the squared uncertainty some 0: the finite value zero
(numpy population standard deviation of a single sample), not the
not-a-number value the claim requires, which this embedding renders as
none. -/
theorem C9_counterexample :
    addTraceMean (fun _ _ => 1) [1/2, 1/2, 3/2] [1, 2, 3] none none
        ⟨true, false, 1, none, some 2, some (0, 2)⟩
      = .ok ⟨[1/2, 3/2], [some (3/2), some 3], some [some (1/8), some 0]⟩ ∧
      some (0 : ℚ) ≠ (none : Option ℚ) := by
  constructor
  · with_unfolding_all rfl
  · simp

/-- C9 amended: with robust false and uncertainty requested, a bin of
population exactly 1 neither crashes the computation nor fails it
globally; that bin's uncertainty is produced as the finite value zero
(squared uncertainty some 0), and the other outputs are produced as
usual. -/
theorem C9_amended (autoRule : List ℚ → ℚ × ℚ → ℕ) (x y : List ℚ)
    (minN : ℕ) (o : Option ℚ) (nb : Option ℤ) (xr : Option (ℚ × ℚ))
    (hist : List ℕ) (edges : List ℚ) (i : ℕ) (v : ℚ)
    (hh : histogram autoRule x (normBins nb) xr = some (hist, edges))
    (hmin : minN ≤ maxNat hist)
    (hi : i < edges.length - 1)
    (hsing : binMembers edges x y (i + 1) = [v]) :
    addTraceMean autoRule x y none none ⟨true, false, minN, o, nb, xr⟩
        = .ok ⟨midpoints edges, (binnedOf edges x y).map npMean,
               some (nonRobustUncSq hist edges x y)⟩ ∧
      (nonRobustUncSq hist edges x y).getD i none = some 0 ∧
      ((binnedOf edges x y).map npMean).getD i none = some v := by
  refine ⟨?ok, ?unc, ?mean⟩
  · rw [addTraceMean_nomask, afterMask_eq _ _ _ _ _ _ hh,
        afterHist_nonrobust _ x y hist edges rfl hmin]
    rfl
  · rw [nonRobustUncSq_getD hist edges x y i hi, hsing, npVar_singleton]
    simp
  · rw [map_npMean_binnedOf_getD edges x y i hi, hsing,
        npMean_of_ne [v] (by simp)]
    simp [specMean]

/-- C9 witness: instantiation of the amended claim: a population-1 bin in
mean_and_uncert mode with robust false produces a zero uncertainty and a
normal result. -/
theorem C9_amended_witness :
    addTraceMean (fun _ _ => 1) [1/2, 1/2, 3/2] [1, 2, 3] none none
        ⟨true, false, 1, none, some 2, some (0, 2)⟩
      = .ok ⟨midpoints [0, 1, 2],
             (binnedOf [0, 1, 2] [1/2, 1/2, 3/2] [1, 2, 3]).map npMean,
             some (nonRobustUncSq [2, 1] [0, 1, 2] [1/2, 1/2, 3/2] [1, 2, 3])⟩ ∧
      (nonRobustUncSq [2, 1] [0, 1, 2] [1/2, 1/2, 3/2] [1, 2, 3]).getD 1 none
        = some 0 ∧
      ((binnedOf [0, 1, 2] [1/2, 1/2, 3/2] [1, 2, 3]).map npMean).getD 1 none
        = some 3 :=
  C9_amended (fun _ _ => 1) [1/2, 1/2, 3/2] [1, 2, 3] 1 none (some 2)
    (some (0, 2)) [2, 1] [0, 1, 2] 1 3 (by with_unfolding_all rfl) (by decide)
    (by decide) (by with_unfolding_all rfl)

/-- C4 counterexample: a successful mean computation with an empty middle
bin returns three centres and three central values, one per bin, with a
NaN (none) entry for the unpopulated middle bin, although only two bins
are populated: zero-sample bins are not omitted from the output, so the
central-value sequence does not have exactly one entry per populated
bin. -/
theorem C4_counterexample :
    addTraceMean (fun _ _ => 1) [1/2, 1/2, 5/2] [1, 2, 3] none none
        ⟨false, false, 1, none, some 3, some (0, 3)⟩
      = .ok ⟨[1/2, 3/2, 5/2], [some (3/2), none, some 3], none⟩ ∧
      ((binnedOf [0, 1, 2, 3] [1/2, 1/2, 5/2] [1, 2, 3]).filter
          (fun b => decide (b ≠ []))).length = 2 ∧
      ([some ((3 : ℚ)/2), none, some 3] : List (Option ℚ)).length = 3 := by
  refine ⟨?a, ?b, ?c⟩ <;> with_unfolding_all rfl

/-- C4 amended: every successful computation returns exactly one centre,
one central value and (when the uncertainty sequence is present) one
uncertainty entry per bin, edges.length - 1 of each, bins with zero
assigned samples included; with robust false a bin's central value is the
NaN marker none exactly when the bin has no assigned samples. -/
theorem C4_amended (autoRule : List ℚ → ℚ × ℚ → ℕ) (x y : List ℚ) (cfg : Cfg)
    (hist : List ℕ) (edges : List ℚ) (r : MeanResult)
    (hh : histogram autoRule x (normBins cfg.nbins) cfg.xrange
            = some (hist, edges))
    (hr : addTraceMean autoRule x y none none cfg = .ok r) :
    r.centres.length = edges.length - 1 ∧
    r.means.length = edges.length - 1 ∧
    (∀ us, r.uncertSq = some us → us.length = edges.length - 1) ∧
    (cfg.robust = false → ∀ i, i < edges.length - 1 →
      (r.means.getD i none = none ↔ binMembers edges x y (i + 1) = [])) := by
  rw [addTraceMean_nomask, afterMask_eq autoRule cfg x y hist edges hh] at hr
  unfold afterHist at hr
  by_cases hmin : maxNat hist < cfg.minN
  · rw [if_pos hmin] at hr
    exact absurd hr (by simp)
  · rw [if_neg hmin] at hr
    by_cases hrob : cfg.robust = true
    · rw [if_pos hrob] at hr
      rcases hrs : robustStats hist (binnedOf edges x y) with _ | mu
      · rw [hrs] at hr
        exact absurd hr (by simp)
      · rw [hrs] at hr
        dsimp only at hr
        rcases hout : cfg.outliers with _ | t
        · rw [hout] at hr
          dsimp only at hr
          cases Except.ok.inj hr
          refine ⟨midpoints_length edges, ?m1, ?u1, ?n1⟩
          · dsimp only
            rw [List.length_map, (robustStats_some_lengths _ _ _ hrs).1,
                binnedOf_length]
          · intro us hus
            dsimp only at hus
            by_cases hum : cfg.uncertMode = true
            · rw [if_pos hum] at hus
              cases Option.some.inj hus
              rw [List.length_map, (robustStats_some_lengths _ _ _ hrs).2,
                  binnedOf_length]
            · rw [if_neg hum] at hus
              exact absurd hus (by simp)
          · intro hf
            rw [hf] at hrob
            exact absurd hrob (by simp)
        · rw [hout] at hr
          dsimp only at hr
          by_cases hmin2 : maxNat ((rejectBins (binnedOf edges x y) mu.1 mu.2
              t).map List.length) < cfg.minN
          · rw [if_pos hmin2] at hr
            exact absurd hr (by simp)
          · rw [if_neg hmin2] at hr
            rcases hrs2 : robustStats
                ((rejectBins (binnedOf edges x y) mu.1 mu.2 t).map List.length)
                (rejectBins (binnedOf edges x y) mu.1 mu.2 t) with _ | mu2
            · rw [hrs2] at hr
              exact absurd hr (by simp)
            · rw [hrs2] at hr
              cases Except.ok.inj hr
              refine ⟨midpoints_length edges, ?m2, ?u2, ?n2⟩
              · dsimp only
                rw [List.length_map, (robustStats_some_lengths _ _ _ hrs2).1,
                    rejectBins_length, binnedOf_length]
              · intro us hus
                dsimp only at hus
                by_cases hum : cfg.uncertMode = true
                · rw [if_pos hum] at hus
                  cases Option.some.inj hus
                  rw [List.length_map, (robustStats_some_lengths _ _ _ hrs2).2,
                      rejectBins_length, binnedOf_length]
                · rw [if_neg hum] at hus
                  exact absurd hus (by simp)
              · intro hf
                rw [hf] at hrob
                exact absurd hrob (by simp)
    · rw [if_neg hrob] at hr
      cases Except.ok.inj hr
      refine ⟨midpoints_length edges, ?m3, ?u3, ?n3⟩
      · dsimp only
        rw [List.length_map, binnedOf_length]
      · intro us hus
        dsimp only at hus
        by_cases hum : cfg.uncertMode = true
        · rw [if_pos hum] at hus
          cases Option.some.inj hus
          exact nonRobustUncSq_length hist edges x y
        · rw [if_neg hum] at hus
          exact absurd hus (by simp)
      · intro _ i hi
        dsimp only
        rw [map_npMean_binnedOf_getD edges x y i hi, npMean_eq_none]

/-- C4 witness: instantiation of the amended claim at the counterexample
input: three entries per sequence and a NaN central value exactly at the
empty middle bin. -/
theorem C4_amended_witness :
    (([(1 : ℚ)/2, 3/2, 5/2] : List ℚ).length = [(0 : ℚ), 1, 2, 3].length - 1) ∧
    (([some ((3 : ℚ)/2), none, some 3] : List (Option ℚ)).getD 1 none = none ↔
      binMembers [0, 1, 2, 3] [1/2, 1/2, 5/2] [1, 2, 3] 2 = []) := by
  have h := C4_amended (fun _ _ => 1) [1/2, 1/2, 5/2] [1, 2, 3]
    ⟨false, false, 1, none, some 3, some (0, 3)⟩ [2, 0, 1] [0, 1, 2, 3]
    ⟨[1/2, 3/2, 5/2], [some (3/2), none, some 3], none⟩
    (by with_unfolding_all rfl) (by with_unfolding_all rfl)
  exact ⟨h.1, h.2.2.2 rfl 1 (by decide)⟩

/-- C5: with robust false, every populated bin's central value is the
arithmetic mean of the y values of the samples assigned to the bin, and in
mean_and_uncert mode the squared uncertainty of the bin equals the squared
standard deviation of those y values (population convention, divisor n,
the convention the design notes attribute to the source) divided by the
bin population; stated over the specification's bin membership (final bin
closed on both ends) for inputs with no sample on the final edge. -/
theorem C5_mean_and_std (autoRule : List ℚ → ℚ × ℚ → ℕ) (x y : List ℚ)
    (uMode : Bool) (minN : ℕ) (o : Option ℚ) (nb : Option ℤ)
    (xr : Option (ℚ × ℚ)) (hist : List ℕ) (edges : List ℚ) (i : ℕ)
    (hh : histogram autoRule x (normBins nb) xr = some (hist, edges))
    (hmin : minN ≤ maxNat hist)
    (hlen : x.length = y.length)
    (hi : i < edges.length - 1)
    (hlast : ∀ v ∈ x, v ≠ edges.getD (edges.length - 1) 0)
    (hne : intervalMembers edges x y i ≠ []) :
    ∃ r, addTraceMean autoRule x y none none ⟨uMode, false, minN, o, nb, xr⟩
        = .ok r ∧
      r.means.getD i none = some (specMean (intervalMembers edges x y i)) ∧
      (uMode = true → ∃ us, r.uncertSq = some us ∧
        us.getD i none = some (specVarPop (intervalMembers edges x y i)
          / ((intervalMembers edges x y i).length : ℚ))) := by
  obtain ⟨hp, hlen2, hhist⟩ := edges_facts autoRule x (normBins nb) xr hist edges hh
  have hmem : binMembers edges x y (i + 1) = intervalMembers edges x y i := by
    apply binMembers_eq_intervalMembers edges x y hp i (by omega)
    intro h2 v hv
    rw [show i + 1 = edges.length - 1 by omega]
    exact hlast v hv
  have hcount : (hist.getD i 0 : ℚ) = ((intervalMembers edges x y i).length : ℚ) := by
    rw [hhist, histCounts_getD edges x i hi,
        intervalMembers_length edges x y i hlen]
  rw [addTraceMean_nomask, afterMask_eq _ _ _ _ _ _ hh,
      afterHist_nonrobust _ x y hist edges rfl hmin]
  refine ⟨_, rfl, ?mean, ?unc⟩
  · dsimp only
    rw [map_npMean_binnedOf_getD edges x y i hi, hmem, npMean_of_ne _ hne]
  · intro hu
    refine ⟨nonRobustUncSq hist edges x y, ?us, ?usv⟩
    · dsimp only
      rw [hu]
      rfl
    · rw [nonRobustUncSq_getD hist edges x y i hi, hmem, npVar_of_ne _ hne]
      dsimp only [Option.map]
      rw [hcount]

/-- C5 witness: instantiation at two one-sample bins: the central value of
bin 0 is the arithmetic mean of its members and its squared uncertainty is
the population variance over the population. -/
theorem C5_witness :
    ∃ r, addTraceMean (fun _ _ => 1) [1/2, 3/2] [2, 4] none none
        ⟨true, false, 1, none, some 2, some (0, 2)⟩ = .ok r ∧
      r.means.getD 0 none
        = some (specMean (intervalMembers [0, 1, 2] [1/2, 3/2] [2, 4] 0)) ∧
      (true = true → ∃ us, r.uncertSq = some us ∧
        us.getD 0 none
          = some (specVarPop (intervalMembers [0, 1, 2] [1/2, 3/2] [2, 4] 0)
              / ((intervalMembers [0, 1, 2] [1/2, 3/2] [2, 4] 0).length : ℚ))) := by
  apply C5_mean_and_std (fun _ _ => 1) [1/2, 3/2] [2, 4] true 1 none (some 2)
    (some (0, 2)) [1, 1] [0, 1, 2] 0 (by with_unfolding_all rfl) (by decide)
    rfl (by decide)
  · intro v hv
    fin_cases hv <;> with_unfolding_all decide
  · rw [show intervalMembers [0, 1, 2] [1/2, 3/2] [2, 4] 0 = [2] from
      by with_unfolding_all rfl]
    simp

theorem afterHist_ne_insufficient (cfg : Cfg) (x y : List ℚ) (hist : List ℕ)
    (edges : List ℚ) (hmin : cfg.minN ≤ maxNat hist) :
    afterHist cfg x y hist edges ≠ .error .insufficientData := by
  unfold afterHist
  rw [if_neg (not_lt.mpr hmin)]
  by_cases hrob : cfg.robust = true
  · rw [if_pos hrob]
    cases robustStats hist (binnedOf edges x y) with
    | none => simp
    | some mu =>
      dsimp only
      cases cfg.outliers with
      | none => simp
      | some t =>
        dsimp only
        split
        · simp
        · cases robustStats ((rejectBins (binnedOf edges x y) mu.1 mu.2 t).map
              List.length) (rejectBins (binnedOf edges x y) mu.1 mu.2 t) with
          | none => simp
          | some mu2 => simp
  · rw [if_neg hrob]
    simp

theorem afterHist_no_after (cfg : Cfg) (x y : List ℚ) (hist : List ℕ)
    (edges : List ℚ) (h : cfg.robust = false ∨ cfg.outliers = none) :
    afterHist cfg x y hist edges ≠ .error .insufficientAfter := by
  unfold afterHist
  split
  · simp
  · by_cases hrob : cfg.robust = true
    · rw [if_pos hrob]
      rcases h with h | h
      · rw [h] at hrob
        exact absurd hrob (by simp)
      · cases robustStats hist (binnedOf edges x y) with
        | none => simp
        | some mu =>
          dsimp only
          rw [h]
          simp
    · rw [if_neg hrob]
      simp

theorem afterHist_out_pass2 (cfg : Cfg) (x y : List ℚ) (hist : List ℕ)
    (edges : List ℚ) (t : ℚ) (hrob : cfg.robust = true)
    (hout : cfg.outliers = some t) (hmin : cfg.minN ≤ maxNat hist)
    (hne : ∀ l ∈ binnedOf edges x y, l ≠ [])
    (hmin2 : cfg.minN ≤ maxNat ((rejectedOf hist edges x y t).map List.length)) :
    afterHist cfg x y hist edges ≠ .error .insufficientAfter := by
  unfold afterHist
  rw [if_neg (not_lt.mpr hmin), hrob, if_pos rfl, robustStats_of_ne _ _ hne]
  dsimp only
  rw [hout]
  dsimp only
  rw [show rejectBins (binnedOf edges x y) (mediansOf (binnedOf edges x y))
        (uncSqOf hist (binnedOf edges x y)) t = rejectedOf hist edges x y t
        from rfl,
      if_neg (not_lt.mpr hmin2)]
  cases robustStats ((rejectedOf hist edges x y t).map List.length)
      (rejectedOf hist edges x y t) with
  | none => simp
  | some mu2 => simp

/-- C1: the computation fails with the insufficient-data error exactly
when the largest histogram bin count is strictly below min_n, so a largest
count exactly equal to min_n passes the check; when outlier rejection is
active (robust true and outliers set, with no empty bin to trip the
percentile call first) the computation fails with the post-rejection
insufficient-data error exactly when the first check passed and the
largest refreshed bin population is strictly below min_n; and without
active rejection the post-rejection failure cannot occur.  Failures are
Except errors, so no partial result accompanies them. -/
theorem C1_insufficient_iff (autoRule : List ℚ → ℚ × ℚ → ℕ) (x y : List ℚ)
    (cfg : Cfg) (hist : List ℕ) (edges : List ℚ) (t : ℚ)
    (hh : histogram autoRule x (normBins cfg.nbins) cfg.xrange
            = some (hist, edges)) :
    (addTraceMean autoRule x y none none cfg = .error .insufficientData
        ↔ maxNat hist < cfg.minN) ∧
    (cfg.robust = true → cfg.outliers = some t →
      (∀ l ∈ binnedOf edges x y, l ≠ []) →
      (addTraceMean autoRule x y none none cfg = .error .insufficientAfter
        ↔ cfg.minN ≤ maxNat hist ∧
          maxNat ((rejectedOf hist edges x y t).map List.length) < cfg.minN)) ∧
    (cfg.robust = false ∨ cfg.outliers = none →
      addTraceMean autoRule x y none none cfg ≠ .error .insufficientAfter) := by
  rw [addTraceMean_nomask, afterMask_eq autoRule cfg x y hist edges hh]
  refine ⟨⟨?f1, ?b1⟩, ?c2, ?c3⟩
  · intro h
    by_contra hmin
    exact afterHist_ne_insufficient cfg x y hist edges (not_lt.mp hmin) h
  · intro hmin
    exact afterHist_insufficient cfg x y hist edges hmin
  · intro hrob hout hne
    constructor
    · intro h
      by_cases hmin : maxNat hist < cfg.minN
      · rw [afterHist_insufficient cfg x y hist edges hmin] at h
        exact absurd h (by simp)
      · by_cases hmin2 :
            maxNat ((rejectedOf hist edges x y t).map List.length) < cfg.minN
        · exact ⟨not_lt.mp hmin, hmin2⟩
        · exact absurd h (afterHist_out_pass2 cfg x y hist edges t hrob hout
            (not_lt.mp hmin) hne (not_lt.mp hmin2))
    · rintro ⟨hmin, hmin2⟩
      exact afterHist_robust_out_insufficient cfg x y hist edges t hrob hout
        hmin hne hmin2
  · intro h
    exact afterHist_no_after cfg x y hist edges h

/-- C1 witness: a single bin holding exactly min_n = 3 samples passes both
the initial check and, with a large threshold retaining every sample, the
post-rejection check: the boundary case count = min_n succeeds. -/
theorem C1_insufficient_iff_witness :
    (addTraceMean (fun _ _ => 1) [0, 0, 0] [1, 2, 3] none none
        ⟨true, true, 3, some 1000, some 1, some (0, 1)⟩
      = .error .insufficientData ↔ maxNat [3] < 3) ∧
    (addTraceMean (fun _ _ => 1) [0, 0, 0] [1, 2, 3] none none
        ⟨true, true, 3, some 1000, some 1, some (0, 1)⟩
      = .error .insufficientAfter ↔ 3 ≤ maxNat [3] ∧
        maxNat ((rejectedOf [3] [0, 1] [0, 0, 0] [1, 2, 3] 1000).map
          List.length) < 3) := by
  have h := C1_insufficient_iff (fun _ _ => 1) [0, 0, 0] [1, 2, 3]
    ⟨true, true, 3, some 1000, some 1, some (0, 1)⟩ [3] [0, 1] 1000
    (by with_unfolding_all rfl)
  refine ⟨h.1, h.2.1 rfl rfl ?ne⟩
  rw [show binnedOf [0, 1] [0, 0, 0] [1, 2, 3] = [[1, 2, 3]] from
    by with_unfolding_all rfl]
  simp

/-- C2 counterexample: in the single bin [0, 1, 2, 3, -100] with median 1
and threshold 100, the sample -100 has a normalized residual of magnitude
far above 100 (its squared residual exceeds the squared threshold times
the squared uncertainty), so the magnitude rule of the claim discards it;
the code instead applies the one-sided signed test and retains it, as both
the rejection stage and the full computation (whose median is still 1)
show. -/
theorem C2_counterexample :
    rejectBins [[0, 1, 2, 3, -100]] [1] [800000/1819801] 100
        = [[0, 1, 2, 3, -100]] ∧
      specOutlierFilterAbs [0, 1, 2, 3, -100] 1 100 (800000/1819801)
        = [0, 1, 2, 3] ∧
      ((-100 : ℚ) - 1) ^ 2 ≥ (100 : ℚ) ^ 2 * (800000/1819801) ∧
      mediansOf (binnedOf [0, 1] [0, 0, 0, 0, 0] [0, 1, 2, 3, -100]) = [1] ∧
      uncSqOf [5] (binnedOf [0, 1] [0, 0, 0, 0, 0] [0, 1, 2, 3, -100])
        = [800000/1819801] ∧
      addTraceMean (fun _ _ => 1) [0, 0, 0, 0, 0] [0, 1, 2, 3, -100] none none
        ⟨false, true, 1, some 100, some 1, some (0, 1)⟩
        = .ok ⟨[1/2], [some 1], none⟩ := by
  refine ⟨?a, ?b, ?c, ?d, ?e, ?f⟩
  · with_unfolding_all rfl
  · with_unfolding_all rfl
  · norm_num
  · with_unfolding_all rfl
  · with_unfolding_all rfl
  · with_unfolding_all rfl

/-- C2 amended: with robust true and an outlier threshold t, each bin
keeps exactly the samples whose SIGNED normalized residual
(y - median) / uncertainty lies strictly below t, where for a bin of zero
uncertainty the float quotient keeps exactly the samples strictly below
the median; low-side outliers are never discarded.  Bin populations are
refreshed and the medians and uncertainties are recomputed from the
filtered membership with the same robust estimator. -/
theorem C2_amended (autoRule : List ℚ → ℚ × ℚ → ℕ) (x y : List ℚ)
    (uMode : Bool) (minN : ℕ) (nb : Option ℤ) (xr : Option (ℚ × ℚ)) (t : ℚ)
    (hist : List ℕ) (edges : List ℚ)
    (hh : histogram autoRule x (normBins nb) xr = some (hist, edges))
    (hmin : minN ≤ maxNat hist)
    (hne : ∀ l ∈ binnedOf edges x y, l ≠ [])
    (hmin2 : minN ≤ maxNat ((rejectedOf hist edges x y t).map List.length))
    (hne2 : ∀ l ∈ rejectedOf hist edges x y t, l ≠ []) :
    addTraceMean autoRule x y none none ⟨uMode, true, minN, some t, nb, xr⟩
        = .ok ⟨midpoints edges,
               (mediansOf (rejectedOf hist edges x y t)).map some,
               if uMode = true then
                 some ((uncSqOf ((rejectedOf hist edges x y t).map List.length)
                         (rejectedOf hist edges x y t)).map some)
               else none⟩ ∧
      ∀ i, i < (binnedOf edges x y).length → ∀ yv,
        (yv ∈ (rejectedOf hist edges x y t).getD i []
          ↔ yv ∈ (binnedOf edges x y).getD i [] ∧
            realKeep yv ((mediansOf (binnedOf edges x y)).getD i 0) t
              ((uncSqOf hist (binnedOf edges x y)).getD i 0)) := by
  constructor
  · rw [addTraceMean_nomask, afterMask_eq _ _ _ _ _ _ hh]
    exact afterHist_robust_out _ x y hist edges t rfl rfl hmin hne hmin2 hne2
  · intro i hi yv
    rw [show rejectedOf hist edges x y t
          = rejectBins (binnedOf edges x y) (mediansOf (binnedOf edges x y))
              (uncSqOf hist (binnedOf edges x y)) t from rfl]
    unfold rejectBins
    rw [getD_map_range _ _ hi, List.mem_filter,
        keepSample_iff yv ((mediansOf (binnedOf edges x y)).getD i 0) t
          ((uncSqOf hist (binnedOf edges x y)).getD i 0)
          (uncSqOf_nonneg hist (binnedOf edges x y) i)]

/-- C2 witness: instantiation of the amended claim on a single bin with
threshold 1000, which retains every sample: the recomputed estimator
output and the membership characterization hold at the concrete input. -/
theorem C2_amended_witness :
    addTraceMean (fun _ _ => 1) [0, 0, 0] [1, 2, 3] none none
        ⟨true, true, 1, some 1000, some 1, some (0, 1)⟩
      = .ok ⟨midpoints [0, 1],
             (mediansOf (rejectedOf [3] [0, 1] [0, 0, 0] [1, 2, 3] 1000)).map
               some,
             if true = true then
               some ((uncSqOf
                       ((rejectedOf [3] [0, 1] [0, 0, 0] [1, 2, 3] 1000).map
                         List.length)
                       (rejectedOf [3] [0, 1] [0, 0, 0] [1, 2, 3] 1000)).map
                 some)
             else none⟩ ∧
      ∀ i, i < (binnedOf [0, 1] [0, 0, 0] [1, 2, 3]).length → ∀ yv,
        (yv ∈ (rejectedOf [3] [0, 1] [0, 0, 0] [1, 2, 3] 1000).getD i []
          ↔ yv ∈ (binnedOf [0, 1] [0, 0, 0] [1, 2, 3]).getD i [] ∧
            realKeep yv
              ((mediansOf (binnedOf [0, 1] [0, 0, 0] [1, 2, 3])).getD i 0) 1000
              ((uncSqOf [3] (binnedOf [0, 1] [0, 0, 0] [1, 2, 3])).getD i 0)) := by
  apply C2_amended (fun _ _ => 1) [0, 0, 0] [1, 2, 3] true 1 (some 1)
    (some (0, 1)) 1000 [3] [0, 1] (by with_unfolding_all rfl) (by decide)
  · rw [show binnedOf [0, 1] [0, 0, 0] [1, 2, 3] = [[1, 2, 3]] from
      by with_unfolding_all rfl]
    simp
  · rw [show rejectedOf [3] [0, 1] [0, 0, 0] [1, 2, 3] 1000 = [[1, 2, 3]] from
      by with_unfolding_all rfl]
    decide
  · rw [show rejectedOf [3] [0, 1] [0, 0, 0] [1, 2, 3] 1000 = [[1, 2, 3]] from
      by with_unfolding_all rfl]
    simp

/-- C8 witness: instantiation of the amended claim at nbins = -3. -/
theorem C8_amended_witness :
    addTraceMean (fun _ _ => 1) [0, 1] [0, 1] none none
        ⟨false, false, 1, none, some (-3), none⟩
      = addTraceMean (fun _ _ => 1) [0, 1] [0, 1] none none
          ⟨false, false, 1, none, none, none⟩ ∧
      addTraceMean (fun _ _ => 1) [0, 1] [0, 1] none none
        ⟨false, false, 1, none, some 0, none⟩ = .error .histError :=
  C8_amended (fun _ _ => 1) [0, 1] [0, 1] none none false false 1 none none
    (-3) (by decide)

end C3SDR
